import Mathlib

/-!
Verification of `scripts/convert-icon.py`: a script that converts a bitmap
icon into a full-color SVG and a monochrome silhouette SVG.

The embedding models:
* the per-pixel silhouette classification (lines 41-46 of the script),
* the regex scan `re.findall(r'<path[^>]+/>', content)` (line 71),
* the substring filters selecting "black" paths with a fallback (lines 72-75),
* the rewrite `re.sub(r'fill="[^"]*"', 'fill="currentColor"', path)` (line 81),
* the assembly of the final SVG document (lines 78-84).

Text is modelled as `List Char`; the scanners are structural recursions that
mirror the Python regex engine's leftmost, non-overlapping match semantics
(advancing one character after a failed attempt, and continuing right after
the end of a successful match).
-/

/-- An RGBA pixel as produced by `Image.open(...).convert('RGBA')`:
four channels, each 0-255. -/
structure Pixel where
  r : Nat
  g : Nat
  b : Nat
  a : Nat
deriving DecidableEq, Repr

/-- The pixel `(0, 0, 0, 255)` written for foreground (line 44). -/
def blackPx : Pixel := ⟨0, 0, 0, 255⟩

/-- The pixel `(255, 255, 255, 255)` written for background (line 46). -/
def whitePx : Pixel := ⟨255, 255, 255, 255⟩

/-- Per-pixel classification, lines 42-46 of the script:
`if a > 50 and not (r > 250 and g > 250 and b > 250)` then black else white. -/
def classify (p : Pixel) : Pixel :=
  if p.a > 50 ∧ ¬ (p.r > 250 ∧ p.g > 250 ∧ p.b > 250) then blackPx else whitePx

/-- The silhouette pixel data: `new_data` built by the loop of lines 40-46,
one output pixel per input pixel, in order. -/
def silhouetteData (d : List Pixel) : List Pixel := d.map classify

/-- Spec-side predicate, from the specification's words: "classify as
foreground when its alpha exceeds a fixed threshold (50/255) AND it is not
near-white (not all of red, green, blue exceed 250/255)". -/
def foregroundSpec (p : Pixel) : Prop :=
  p.a > 50 ∧ ¬ (p.r > 250 ∧ p.g > 250 ∧ p.b > 250)

instance : DecidablePred foregroundSpec := fun p => by
  unfold foregroundSpec; infer_instance

/-- `hasLead needle s` is true when `needle` is an initial run of `s`. -/
def hasLead : List Char → List Char → Bool
  | [], _ => true
  | _ :: _, [] => false
  | n :: ns, c :: cs => (n == c) && hasLead ns cs

/-- `occursIn needle s`: `needle` occurs contiguously somewhere in `s`
(Python's `needle in s`). -/
def occursIn : List Char → List Char → Bool
  | n, [] => hasLead n []
  | n, c :: cs => hasLead n (c :: cs) || occursIn n cs

/-- ASCII lowercasing of one character, modelling `str.lower()` on the
ASCII texts the script handles. -/
def lowerChar (c : Char) : Char :=
  if 'A' ≤ c ∧ c ≤ 'Z' then Char.ofNat (c.toNat + 32) else c

/-- The literal `<path` opening the regex `<path[^>]+/>` of line 71. -/
def pathLit : List Char := ['<', 'p', 'a', 't', 'h']

/-- `re.findall(r'<path[^>]+/>', content)` (line 71) as a left-to-right
scanner.  The first argument is the number of characters still inside the
most recent match (skipped without rescanning, as the regex engine resumes
after a match).  At a scan position, the pattern matches exactly when the
text starts with `<path`, the following run of non-`>` characters ends with
`/` and has length at least 2, and a `>` follows that run. -/
def findPathsS : Nat → List Char → List (List Char)
  | k + 1, _ :: cs => findPathsS k cs
  | _, [] => []
  | 0, c :: cs =>
    if hasLead pathLit (c :: cs) then
      (if 2 ≤ ((cs.drop 4).takeWhile (fun x => x != '>')).length ∧
          ((cs.drop 4).takeWhile (fun x => x != '>')).getLast? = some '/' ∧
          ((cs.drop 4).dropWhile (fun x => x != '>')) ≠ [] then
        (pathLit ++ ((cs.drop 4).takeWhile (fun x => x != '>')) ++ ['>']) ::
          findPathsS (((cs.drop 4).takeWhile (fun x => x != '>')).length + 5) cs
      else findPathsS 0 cs)
    else findPathsS 0 cs

/-- `paths = re.findall(r'<path[^>]+/>', content)`, line 71. -/
def findPaths (s : List Char) : List (List Char) := findPathsS 0 s

/-- Line 72's filter: `'#000' in p or 'black' in p.lower()`. -/
def isBlackish (p : List Char) : Bool :=
  occursIn ['#', '0', '0', '0'] p ||
    occursIn ['b', 'l', 'a', 'c', 'k'] (p.map lowerChar)

/-- Line 75's fallback filter: `'#fff' not in p and '#FFF' not in p`. -/
def notWhiteish (p : List Char) : Bool :=
  !(occursIn ['#', 'f', 'f', 'f'] p) && !(occursIn ['#', 'F', 'F', 'F'] p)

/-- `black_paths` after lines 72-75: filter by `isBlackish`; if that is
empty, filter by `notWhiteish` instead. -/
def blackPathsOf (content : List Char) : List (List Char) :=
  let paths := findPaths content
  let bp := paths.filter isBlackish
  if bp = [] then paths.filter notWhiteish else bp

/-- The literal `fill="` opening the regex `fill="[^"]*"` of line 81. -/
def fillLit : List Char := ['f', 'i', 'l', 'l', '=', '"']

/-- The characters of `currentColor`. -/
def ccVal : List Char :=
  ['c', 'u', 'r', 'r', 'e', 'n', 't', 'C', 'o', 'l', 'o', 'r']

/-- The replacement text `fill="currentColor"` of line 81. -/
def subHead : List Char := fillLit ++ ccVal ++ ['"']

/-- `re.sub(r'fill="[^"]*"', 'fill="currentColor"', path)` (line 81) as a
left-to-right scanner; the first argument counts characters still inside
the most recent match.  At a scan position, the pattern matches exactly
when the text starts with `fill="` and a closing `"` occurs later; the
match extends to the first such `"`. -/
def subFillS : Nat → List Char → List Char
  | k + 1, _ :: cs => subFillS k cs
  | _, [] => []
  | 0, c :: cs =>
    if hasLead fillLit (c :: cs) then
      (if ((cs.drop 5).dropWhile (fun x => x != '"')) ≠ [] then
        subHead ++ subFillS (((cs.drop 5).takeWhile (fun x => x != '"')).length + 6) cs
      else c :: subFillS 0 cs)
    else c :: subFillS 0 cs

/-- The fill rewrite of line 81. -/
def subFill (s : List Char) : List Char := subFillS 0 s

/-- The values of the complete double-quoted `fill` attributes of a text:
the contents matched by the same scan `fill="[^"]*"` that line 81 rewrites.
Used to state properties of the final document. -/
def fillValsS : Nat → List Char → List (List Char)
  | k + 1, _ :: cs => fillValsS k cs
  | _, [] => []
  | 0, c :: cs =>
    if hasLead fillLit (c :: cs) then
      (if ((cs.drop 5).dropWhile (fun x => x != '"')) ≠ [] then
        ((cs.drop 5).takeWhile (fun x => x != '"')) ::
          fillValsS (((cs.drop 5).takeWhile (fun x => x != '"')).length + 6) cs
      else fillValsS 0 cs)
    else fillValsS 0 cs

/-- All complete double-quoted `fill` attribute values of a text. -/
def fillVals (s : List Char) : List (List Char) := fillValsS 0 s

/-- The fixed opening tag of line 78, with its trailing newline. -/
def svgHeader : List Char :=
  "<svg xmlns=\"http://www.w3.org/2000/svg\" viewBox=\"0 0 1206 1206\" width=\"24\" height=\"24\" fill=\"currentColor\">\n".data

/-- The closing tag appended at line 84. -/
def svgFooter : List Char := "</svg>".data

/-- The final monochrome SVG text assembled in lines 78-84 from the
vectorizer output `content`: the fixed header, then each retained path
with its fill attributes rewritten, each followed by a newline, then the
footer. -/
def monoSvg (content : List Char) : List Char :=
  svgHeader ++ ((blackPathsOf content).map (fun p => subFill p ++ ['\n'])).flatten ++ svgFooter

/-- One full run of the script (lines 102-103), with the two external
vectorizer invocations modelled as functions from the bitmap (width,
height, pixel data) to the produced SVG text: the color output is the
color-mode vectorizer output unmodified; the monochrome output is the
post-processing of the binary-mode vectorizer output on the silhouette. -/
def runConvert (vecColor vecBinary : Nat → Nat → List Pixel → List Char)
    (w h : Nat) (src : List Pixel) : List Char × List Char :=
  (vecColor w h src, monoSvg (vecBinary w h (silhouetteData src)))

/-- A vectorizer producing empty text on every input, used as a concrete
instantiation of the opaque external vectorizer. -/
def emptyVectorizer : Nat → Nat → List Pixel → List Char := fun _ _ _ => []

/-- A vectorizer producing one black path element on every input, used as
a concrete instantiation of the opaque external vectorizer. -/
def onePathVec : Nat → Nat → List Pixel → List Char :=
  fun _ _ _ => "<path d=\"m 2 2\" fill=\"#000000\"/>".data

/-- The vectorizer-output text of the C2 counterexample: one self-closing
path element whose fill attribute is the color name `white`. -/
def c2content : List Char := "<path d=\"M0 0\" fill=\"white\"/>".data

/-- The apostrophe (single-quote) character. -/
def squote : Char := Char.ofNat 39

/-- The vectorizer-output text of the C3 counterexample: one self-closing
path element whose fill attribute is written with single quotes. -/
def c3content : List Char :=
  "<path d=\"x\" fill=".data ++ [squote] ++ "#000".data ++ [squote] ++ "/>".data

/-- Claim C1: for every source bitmap and every position, the
silhouette-construction step writes opaque black `(0,0,0,255)` at that
position exactly when the source pixel there has `a > 50` and not
`(r > 250 and g > 250 and b > 250)`, and opaque white `(255,255,255,255)`
otherwise. -/
theorem c1_classification (d : List Pixel) (i : Nat) :
    (silhouetteData d)[i]? =
      (d[i]?).map (fun p => if foregroundSpec p then blackPx else whitePx) := by
  have h : ∀ p : Pixel, classify p = if foregroundSpec p then blackPx else whitePx := by
    intro p
    by_cases hp : foregroundSpec p
    · rw [if_pos hp]
      exact if_pos hp
    · rw [if_neg hp]
      exact if_neg hp
  rw [silhouetteData, List.getElem?_map]
  cases d[i]? <;> simp [h]

/-- Claim C5 counterexample: on the one-pixel all-black source bitmap the
silhouette has exactly one distinct pixel value, not two. -/
theorem c5_counterexample :
    (silhouetteData [⟨0, 0, 0, 255⟩]).dedup.length = 1 ∧
      ¬ (silhouetteData [⟨0, 0, 0, 255⟩]).dedup.length = 2 := by
  decide

/-- Claim C5 (amended): every silhouette pixel value is one of opaque
black and opaque white, so the silhouette has at most two distinct pixel
values. -/
theorem c5_at_most_two (d : List Pixel) :
    (silhouetteData d).all (fun p => p == blackPx || p == whitePx) = true ∧
      (silhouetteData d).dedup.length ≤ 2 := by
  have hall : ∀ q ∈ silhouetteData d, q = blackPx ∨ q = whitePx := by
    intro q hq
    simp only [silhouetteData, List.mem_map] at hq
    obtain ⟨p, -, rfl⟩ := hq
    unfold classify
    by_cases hp : p.a > 50 ∧ ¬ (p.r > 250 ∧ p.g > 250 ∧ p.b > 250)
    · exact Or.inl (if_pos hp)
    · exact Or.inr (if_neg hp)
  constructor
  · rw [List.all_eq_true]
    intro q hq
    rcases hall q hq with h | h <;> simp [h]
  · have hsub : (silhouetteData d).toFinset ⊆ ({blackPx, whitePx} : Finset Pixel) := by
      intro q hq
      rw [List.mem_toFinset] at hq
      rcases hall q hq with h | h <;> simp [h]
    have hcard := Finset.card_le_card hsub
    rw [List.card_toFinset] at hcard
    calc (silhouetteData d).dedup.length
        ≤ ({blackPx, whitePx} : Finset Pixel).card := hcard
      _ ≤ 2 := by
          refine le_trans (Finset.card_insert_le _ _) ?_
          simp

/-- Claim C6: a fully opaque fully black source bitmap classifies entirely
to foreground (black); a fully transparent one, and a fully near-white
one, classify entirely to background (white). -/
theorem c6_uniform (d : List Pixel) :
    (d.all (fun p => p == (⟨0, 0, 0, 255⟩ : Pixel)) = true →
      (silhouetteData d).all (fun q => q == blackPx) = true) ∧
    (d.all (fun p => p.a == 0) = true →
      (silhouetteData d).all (fun q => q == whitePx) = true) ∧
    (d.all (fun p => decide (p.r > 250) && decide (p.g > 250) && decide (p.b > 250)) = true →
      (silhouetteData d).all (fun q => q == whitePx) = true) := by
  refine ⟨?_, ?_, ?_⟩ <;>
    · intro h
      rw [List.all_eq_true] at h ⊢
      intro q hq
      simp only [silhouetteData, List.mem_map] at hq
      obtain ⟨p, hp, rfl⟩ := hq
      have := h p hp
      simp only [beq_iff_eq, Bool.and_eq_true, decide_eq_true_eq] at this
      simp [classify, blackPx, whitePx]
      first
        | (subst this; simp [blackPx])
        | (intro hc; omega)

/-- Claim C6 witness: the three hypotheses discharged on concrete
one-pixel bitmaps. -/
theorem c6_uniform_witness :
    (silhouetteData [⟨0, 0, 0, 255⟩]).all (fun q => q == blackPx) = true ∧
    (silhouetteData [⟨7, 7, 7, 0⟩]).all (fun q => q == whitePx) = true ∧
    (silhouetteData [⟨255, 255, 255, 200⟩]).all (fun q => q == whitePx) = true :=
  ⟨(c6_uniform [⟨0, 0, 0, 255⟩]).1 (by decide),
   (c6_uniform [⟨7, 7, 7, 0⟩]).2.1 (by decide),
   (c6_uniform [⟨255, 255, 255, 200⟩]).2.2 (by decide)⟩

/-- Claim C7: the 2×2 bitmap with one fully opaque black pixel and three
fully transparent pixels classifies to one black and three white
silhouette pixels. -/
theorem c7_example :
    silhouetteData [⟨0, 0, 0, 255⟩, ⟨0, 0, 0, 0⟩, ⟨0, 0, 0, 0⟩, ⟨0, 0, 0, 0⟩] =
      [blackPx, whitePx, whitePx, whitePx] ∧
    (silhouetteData [⟨0, 0, 0, 255⟩, ⟨0, 0, 0, 0⟩, ⟨0, 0, 0, 0⟩, ⟨0, 0, 0, 0⟩]).count blackPx = 1 ∧
    (silhouetteData [⟨0, 0, 0, 255⟩, ⟨0, 0, 0, 0⟩, ⟨0, 0, 0, 0⟩, ⟨0, 0, 0, 0⟩]).count whitePx = 3 := by
  decide

/-- Claim C9: with the two external vectorizer invocations modelled as
functions (deterministic by assumption: two runs see the same function
values), two runs of the full conversion on the same source bitmap
produce identical color and monochrome outputs. -/
theorem c9_deterministic (vc vb vc2 vb2 : Nat → Nat → List Pixel → List Char)
    (hc : ∀ w h d, vc w h d = vc2 w h d) (hb : ∀ w h d, vb w h d = vb2 w h d)
    (w h : Nat) (src : List Pixel) :
    runConvert vc vb w h src = runConvert vc2 vb2 w h src := by
  simp [runConvert, hc, hb]

/-- Claim C9 witness: the theorem applied at a concrete vectorizer and
bitmap. -/
theorem c9_deterministic_witness :
    runConvert emptyVectorizer emptyVectorizer 2 2 [⟨0, 0, 0, 255⟩] =
      runConvert emptyVectorizer emptyVectorizer 2 2 [⟨0, 0, 0, 255⟩] :=
  c9_deterministic emptyVectorizer emptyVectorizer emptyVectorizer emptyVectorizer
    (fun _ _ _ => rfl) (fun _ _ _ => rfl) 2 2 [⟨0, 0, 0, 255⟩]

/-- Claim C10: the silhouette has the same pixel count as the source, each
output pixel is a function of the source pixel at the same position only,
and every output pixel is opaque black or opaque white (in particular
fully opaque). -/
theorem c10_pointwise (d : List Pixel) :
    (silhouetteData d).length = d.length ∧
    (silhouetteData d).all (fun p => (p == blackPx || p == whitePx) && p.a == 255) = true ∧
    ∀ i : Nat, (silhouetteData d)[i]? = (d[i]?).map classify := by
  refine ⟨by simp [silhouetteData], ?_, ?_⟩
  · rw [List.all_eq_true]
    intro q hq
    simp only [silhouetteData, List.mem_map] at hq
    obtain ⟨p, -, rfl⟩ := hq
    unfold classify
    by_cases hp : p.a > 50 ∧ ¬ (p.r > 250 ∧ p.g > 250 ∧ p.b > 250)
    · rw [if_pos hp]; decide
    · rw [if_neg hp]; decide
  · intro i
    simp [silhouetteData, List.getElem?_map]

/-- Claim C2 counterexample: on a vectorizer output whose only path
element has `fill="white"` — a fill attribute denoting white — the
extraction retains that element (the fallback excludes only elements
containing the substrings `#fff` or `#FFF`, not ones whose fill is the
color name `white`), contradicting "retains exactly the elements whose
fill does not denote white". -/
theorem c2_counterexample :
    blackPathsOf c2content = [c2content] ∧
    occursIn ("fill=\"white\"".data) c2content = true := by
  decide

/-- Claim C2 (amended): an element is retained exactly when it is one of
the scanned self-closing path elements and — if some scanned element
contains the substring `#000` or, ASCII case-insensitively, `black` — it
contains one of those substrings itself; otherwise (no such element) it
contains neither the substring `#fff` nor `#FFF`. -/
theorem c2_retention (content p : List Char) :
    p ∈ blackPathsOf content ↔
      (p ∈ findPaths content ∧
       ((findPaths content).any isBlackish = true → isBlackish p = true) ∧
       ((findPaths content).any isBlackish = false → notWhiteish p = true)) := by
  unfold blackPathsOf
  by_cases hbp : (findPaths content).filter isBlackish = []
  · have hany : (findPaths content).any isBlackish = false := by
      rw [← Bool.not_eq_true, List.any_eq_true]
      rw [List.filter_eq_nil_iff] at hbp
      push_neg
      intro x hx
      simpa using hbp x hx
    simp [hbp, hany, List.mem_filter]
  · have hany : (findPaths content).any isBlackish = true := by
      rw [List.any_eq_true]
      obtain ⟨x, hx⟩ := List.exists_mem_of_ne_nil _ hbp
      rw [List.mem_filter] at hx
      exact ⟨x, hx.1, hx.2⟩
    simp [hbp, hany, List.mem_filter]

/-- Claim C2 witness: a concrete element containing `#000` is retained. -/
theorem c2_retention_witness :
    ("<path d=\"Z\" fill=\"#000\"/>".data) ∈
      blackPathsOf ("<path d=\"Z\" fill=\"#000\"/>".data) :=
  (c2_retention _ _).mpr (by decide)

/-- Claim C4 counterexample: on empty vectorizer output, extraction and
fallback both yield no elements, and the program still assembles and
writes the monochrome document — header plus footer, containing no path
elements — rather than aborting. -/
theorem c4_counterexample :
    blackPathsOf [] = [] ∧ monoSvg [] = svgHeader ++ svgFooter ∧
      findPaths (monoSvg []) = [] := by
  decide

/-- Claim C4 (amended): whenever the extraction (including the fallback)
yields no shape elements, the program writes a monochrome output document
consisting of only the fixed header and footer — a document with no
shapes — and completes normally. -/
theorem c4_empty_extraction (content : List Char)
    (h : blackPathsOf content = []) :
    monoSvg content = svgHeader ++ svgFooter := by
  simp [monoSvg, h]

/-- Claim C4 witness: the theorem applied to a vectorizer output with no
path elements. -/
theorem c4_empty_extraction_witness :
    monoSvg ("no paths here".data) = svgHeader ++ svgFooter :=
  c4_empty_extraction ("no paths here".data) (by decide)

/-- Claim C8 counterexample: a source bitmap with a foreground pixel, run
through a vectorizer producing empty output, yields a final monochrome
document with no shape elements — the code places no constraint on the
opaque external vectorizer that would ensure a retained element. -/
theorem c8_counterexample :
    foregroundSpec ⟨0, 0, 0, 255⟩ ∧
    findPaths ((runConvert emptyVectorizer emptyVectorizer 1 1 [⟨0, 0, 0, 255⟩]).2) = [] := by
  decide

/-- `hasLead` is preserved by extending the text on the right. -/
theorem hasLead_append_of {n a : List Char} (b : List Char)
    (h : hasLead n a = true) : hasLead n (a ++ b) = true := by
  induction n generalizing a with
  | nil => simp [hasLead]
  | cons x ns ih =>
    cases a with
    | nil => simp [hasLead] at h
    | cons c cs =>
      simp only [hasLead, Bool.and_eq_true, beq_iff_eq] at h
      simp only [List.cons_append, hasLead, Bool.and_eq_true, beq_iff_eq]
      exact ⟨h.1, ih h.2⟩

/-- Every list is an initial run of itself followed by anything. -/
theorem hasLead_self_append (x b : List Char) : hasLead x (x ++ b) = true := by
  induction x with
  | nil => simp [hasLead]
  | cons c cs ih => simpa [hasLead] using ih

/-- An occurrence in the tail is an occurrence. -/
theorem occursIn_cons_of (n : List Char) (c : Char) (cs : List Char)
    (h : occursIn n cs = true) : occursIn n (c :: cs) = true := by
  simp [occursIn, h]

/-- An occurrence in the right part of an append is an occurrence. -/
theorem occursIn_append_right (n a b : List Char) (h : occursIn n b = true) :
    occursIn n (a ++ b) = true := by
  induction a with
  | nil => simpa using h
  | cons c a ih => exact occursIn_cons_of n c _ ih

/-- The empty needle occurs everywhere. -/
theorem occursIn_nil_needle (s : List Char) : occursIn [] s = true := by
  cases s <;> simp [occursIn, hasLead]

/-- An occurrence in the left part of an append is an occurrence. -/
theorem occursIn_append_left (n a b : List Char) (h : occursIn n a = true) :
    occursIn n (a ++ b) = true := by
  induction a with
  | nil =>
    cases n with
    | nil => exact occursIn_nil_needle b
    | cons x ns => simp [occursIn, hasLead] at h
  | cons c a ih =>
    rw [occursIn, Bool.or_eq_true] at h
    rcases h with h | h
    · rw [List.cons_append, occursIn, Bool.or_eq_true]
      exact Or.inl (hasLead_append_of b h)
    · exact occursIn_cons_of n c _ (ih h)

/-- A list occurs at the front of itself followed by anything. -/
theorem occursIn_self_append (n b : List Char) : occursIn n (n ++ b) = true := by
  cases n with
  | nil => exact occursIn_nil_needle b
  | cons c cs =>
    rw [List.cons_append, occursIn, Bool.or_eq_true]
    exact Or.inl (hasLead_self_append (c :: cs) b)

/-- The image of a member of a list occurs in the flattened image of the
list. -/
theorem occursIn_flatten_of_mem (f : List Char → List Char)
    (l : List (List Char)) (p : List Char) (h : p ∈ l) :
    occursIn (f p) ((l.map f).flatten) = true := by
  induction l with
  | nil => simp at h
  | cons q l ih =>
    rw [List.map_cons, List.flatten_cons]
    rcases List.mem_cons.mp h with rfl | h
    · exact occursIn_self_append (f p) _
    · exact occursIn_append_right _ _ _ (ih h)

/-- One scan step of the rewrite at a fresh position. -/
theorem subFill_cons_eq (c : Char) (cs : List Char) :
    subFill (c :: cs) =
      if hasLead fillLit (c :: cs) = true then
        (if ((cs.drop 5).dropWhile (fun x => x != '"')) ≠ [] then
          subHead ++ subFillS (((cs.drop 5).takeWhile (fun x => x != '"')).length + 6) cs
        else c :: subFill cs)
      else c :: subFill cs := rfl

/-- One scan step of the fill-attribute scan at a fresh position. -/
theorem fillVals_cons_eq (c : Char) (cs : List Char) :
    fillVals (c :: cs) =
      if hasLead fillLit (c :: cs) = true then
        (if ((cs.drop 5).dropWhile (fun x => x != '"')) ≠ [] then
          ((cs.drop 5).takeWhile (fun x => x != '"')) ::
            fillValsS (((cs.drop 5).takeWhile (fun x => x != '"')).length + 6) cs
        else fillVals cs)
      else fillVals cs := rfl

/-- With `k` characters still to skip, the rewrite scan equals the scan
started after those characters. -/
theorem subFillS_skip (k : Nat) (s : List Char) :
    subFillS k s = subFill (s.drop k) := by
  induction s generalizing k with
  | nil => cases k <;> rfl
  | cons c cs ih =>
    cases k with
    | zero => rfl
    | succ j =>
      have hstep : subFillS (j + 1) (c :: cs) = subFillS j cs := rfl
      rw [hstep, List.drop_succ_cons]
      exact ih j

/-- A text with an initial run decomposes as that run followed by a
remainder. -/
theorem eq_append_of_hasLead {n s : List Char} (h : hasLead n s = true) :
    ∃ r, s = n ++ r := by
  induction n generalizing s with
  | nil => exact ⟨s, rfl⟩
  | cons x ns ih =>
    cases s with
    | nil => simp [hasLead] at h
    | cons c cs =>
      simp only [hasLead, Bool.and_eq_true, beq_iff_eq] at h
      obtain ⟨hxc, h2⟩ := h
      subst hxc
      obtain ⟨r, hr⟩ := ih h2
      exact ⟨r, by simp [hr]⟩

/-- On a quote-free text the rewrite of line 81 finds no match and returns
the text unchanged. -/
theorem subFill_of_no_quote {s : List Char} (h : ∀ c ∈ s, c ≠ '"') :
    subFill s = s := by
  induction s with
  | nil => rfl
  | cons c cs ih =>
    by_cases hL : hasLead fillLit (c :: cs) = true
    · exfalso
      obtain ⟨r, hr⟩ := eq_append_of_hasLead hL
      have hmem : ('"' : Char) ∈ c :: cs := by rw [hr]; simp [fillLit]
      exact h _ hmem rfl
    · rw [subFill_cons_eq, if_neg hL, ih (fun x hx => h x (List.mem_cons_of_mem c hx))]

/-- A quote-free text has no complete double-quoted fill attribute. -/
theorem fillVals_of_no_quote {s : List Char} (h : ∀ c ∈ s, c ≠ '"') :
    fillVals s = [] := by
  induction s with
  | nil => rfl
  | cons c cs ih =>
    by_cases hL : hasLead fillLit (c :: cs) = true
    · exfalso
      obtain ⟨r, hr⟩ := eq_append_of_hasLead hL
      have hmem : ('"' : Char) ∈ c :: cs := by rw [hr]; simp [fillLit]
      exact h _ hmem rfl
    · rw [fillVals_cons_eq, if_neg hL]
      exact ih (fun x hx => h x (List.mem_cons_of_mem c hx))

/-- Scanning the replacement text `fill="currentColor"` yields exactly the
value `currentColor` and continues after it. -/
theorem fillVals_subHead_append (s : List Char) :
    fillVals (subHead ++ s) = ccVal :: fillVals s := rfl

/-- The five characters `ill="` cannot start a match of the rewrite. -/
theorem subFill_tail5 (s : List Char) :
    subFill ('i' :: 'l' :: 'l' :: '=' :: '"' :: s) =
      'i' :: 'l' :: 'l' :: '=' :: '"' :: subFill s := rfl

/-- The five characters `ill="` cannot start a fill attribute. -/
theorem fillVals_tail5 (s : List Char) :
    fillVals ('i' :: 'l' :: 'l' :: '=' :: '"' :: s) = fillVals s := rfl

/-- The head equality forced by an initial run. -/
theorem hasLead_cons_head {a : Char} {w : List Char} {c : Char} {r : List Char}
    (h : hasLead (a :: w) (c :: r) = true) : a = c := by
  simp only [hasLead, Bool.and_eq_true, beq_iff_eq] at h
  exact h.1

/-- A needle avoiding `f` that leads the rewrite's output also leads its
input: the rewrite only ever creates new text starting with `f`. -/
theorem hasLead_of_hasLead_subFill {w : List Char} (hw : ∀ c ∈ w, c ≠ 'f') :
    ∀ s, hasLead w (subFill s) = true → hasLead w s = true := by
  induction w with
  | nil => intro s _; rfl
  | cons a w ih =>
    intro s h
    cases s with
    | nil => simp [subFill, subFillS, hasLead] at h
    | cons d ds =>
      by_cases hL : hasLead fillLit (d :: ds) = true
      · by_cases hq : ((ds.drop 5).dropWhile (fun x => x != '"')) ≠ []
        · rw [subFill_cons_eq, if_pos hL, if_pos hq] at h
          have ha : a = 'f' := hasLead_cons_head h
          exact absurd ha (hw a (List.mem_cons_self a w))
        · rw [subFill_cons_eq, if_pos hL, if_neg hq] at h
          simp only [hasLead, Bool.and_eq_true, beq_iff_eq] at h ⊢
          exact ⟨h.1, ih (fun x hx => hw x (List.mem_cons_of_mem a hx)) ds h.2⟩
      · rw [subFill_cons_eq, if_neg hL] at h
        simp only [hasLead, Bool.and_eq_true, beq_iff_eq] at h ⊢
        exact ⟨h.1, ih (fun x hx => hw x (List.mem_cons_of_mem a hx)) ds h.2⟩

/-- Main invariant of the rewrite of line 81: in its output, every
complete double-quoted fill attribute has the value `currentColor`. -/
theorem subFill_allCC : ∀ (n : Nat) (p : List Char), p.length ≤ n →
    (fillVals (subFill p)).all (fun v => v == ccVal) = true := by
  intro n
  induction n with
  | zero =>
    intro p hp
    have hnil : p = [] := by
      cases p with
      | nil => rfl
      | cons c cs => simp at hp
    subst hnil
    rfl
  | succ n ih =>
    intro p hp
    cases p with
    | nil => rfl
    | cons c cs =>
      have hcs : cs.length ≤ n := by simpa using hp
      by_cases hL : hasLead fillLit (c :: cs) = true
      · by_cases hq : ((cs.drop 5).dropWhile (fun x => x != '"')) ≠ []
        · rw [subFill_cons_eq, if_pos hL, if_pos hq, subFillS_skip,
            fillVals_subHead_append, List.all_cons, Bool.and_eq_true]
          refine ⟨by simp, ?_⟩
          refine ih _ ?_
          have h1 : (cs.drop (((cs.drop 5).takeWhile (fun x => x != '"')).length + 6)).length
              ≤ cs.length := by
            rw [List.length_drop]
            omega
          omega
        · obtain ⟨r, hr⟩ := eq_append_of_hasLead hL
          simp only [fillLit, List.cons_append, List.nil_append, List.cons.injEq] at hr
          obtain ⟨hc, hcs2⟩ := hr
          have hq0 : ((cs.drop 5).dropWhile (fun x => x != '"')) = [] := not_not.mp hq
          have hdrop : cs.drop 5 = r := by rw [hcs2]; rfl
          rw [hdrop] at hq0
          have hrq : ∀ x ∈ r, x ≠ '"' := by
            intro x hx
            have hb := (List.dropWhile_eq_nil_iff.mp hq0) x hx
            simpa using hb
          have hfix : subFill cs = cs := by
            rw [hcs2, subFill_tail5, subFill_of_no_quote hrq]
          rw [subFill_cons_eq, if_pos hL, if_neg hq, hfix, hcs2, hc]
          have hone : fillVals ('f' :: 'i' :: 'l' :: 'l' :: '=' :: '"' :: r) = fillVals r := by
            rw [fillVals_cons_eq,
              if_pos (show hasLead fillLit ('f' :: 'i' :: 'l' :: 'l' :: '=' :: '"' :: r) = true from rfl),
              show ('i' :: 'l' :: 'l' :: '=' :: '"' :: r).drop 5 = r from rfl,
              if_neg (not_not_intro hq0)]
            exact fillVals_tail5 r
          rw [hone, fillVals_of_no_quote hrq]
          rfl
      · rw [subFill_cons_eq, if_neg hL]
        have hLt : ¬ hasLead fillLit (c :: subFill cs) = true := by
          intro hcon
          apply hL
          simp only [fillLit, hasLead, Bool.and_eq_true, beq_iff_eq] at hcon ⊢
          exact ⟨hcon.1, hasLead_of_hasLead_subFill (by decide) cs hcon.2⟩
        rw [fillVals_cons_eq, if_neg hLt]
        exact ih cs hcs

/-- Claim C3 counterexample: a retained element carrying a single-quoted
fill attribute is left untouched by the rewrite of line 81 (which matches
only double-quoted fill attributes), so the final monochrome document
contains a shape element whose fill is the concrete color `#000`, not the
placeholder. -/
theorem c3_counterexample :
    c3content ∈ blackPathsOf c3content ∧
    occursIn ("fill=".data ++ [squote] ++ "#000".data ++ [squote])
      (monoSvg c3content) = true := by
  decide

/-- Claim C3 (amended): the final document is the fixed container holding
the retained path elements, each rewritten and emitted into the document
text, and in each rewritten element every complete double-quoted fill
attribute has the placeholder value `currentColor`; fill attributes
written in any other form (for example single-quoted) may keep a concrete
color. -/
theorem c3_fill_rewritten (content p : List Char) (h : p ∈ blackPathsOf content) :
    occursIn (subFill p ++ ['\n']) (monoSvg content) = true ∧
    (fillVals (subFill p)).all (fun v => v == ccVal) = true := by
  constructor
  · unfold monoSvg
    apply occursIn_append_left
    apply occursIn_append_right
    exact occursIn_flatten_of_mem (fun q => subFill q ++ ['\n']) _ p h
  · exact subFill_allCC p.length p (le_refl _)

/-- Claim C3 witness: the theorem applied to a concrete vectorizer output
with one retained element. -/
theorem c3_fill_rewritten_witness :
    occursIn (subFill ("<path d=\"m0\" fill=\"#010101\" fill=\"black\"/>".data) ++ ['\n'])
      (monoSvg ("<path d=\"m0\" fill=\"#010101\" fill=\"black\"/>".data)) = true ∧
    (fillVals (subFill ("<path d=\"m0\" fill=\"#010101\" fill=\"black\"/>".data))).all
      (fun v => v == ccVal) = true :=
  c3_fill_rewritten _ _ (by decide)

/-- `takeWhile` passes over a fully satisfying left part. -/
theorem takeWhile_append_all {p : Char → Bool} : ∀ (a b : List Char),
    (∀ c ∈ a, p c = true) → (a ++ b).takeWhile p = a ++ b.takeWhile p := by
  intro a
  induction a with
  | nil => intro b _; rfl
  | cons c a ih =>
    intro b h
    rw [List.cons_append, List.takeWhile_cons, if_pos (h c (List.mem_cons_self c a)),
      ih b (fun x hx => h x (List.mem_cons_of_mem c hx)), List.cons_append]

/-- `dropWhile` skips a fully satisfying left part. -/
theorem dropWhile_append_all {p : Char → Bool} : ∀ (a b : List Char),
    (∀ c ∈ a, p c = true) → (a ++ b).dropWhile p = b.dropWhile p := by
  intro a
  induction a with
  | nil => intro b _; rfl
  | cons c a ih =>
    intro b h
    rw [List.cons_append, List.dropWhile_cons, if_pos (h c (List.mem_cons_self c a)),
      ih b (fun x hx => h x (List.mem_cons_of_mem c hx))]

/-- When the stopping element lies in the left part, `takeWhile` ignores
the right part. -/
theorem takeWhile_append_stop {p : Char → Bool} : ∀ (a b : List Char),
    a.dropWhile p ≠ [] → (a ++ b).takeWhile p = a.takeWhile p := by
  intro a
  induction a with
  | nil => intro b h; exact absurd rfl h
  | cons c a ih =>
    intro b h
    by_cases hc : p c = true
    · rw [List.dropWhile_cons, if_pos hc] at h
      rw [List.cons_append, List.takeWhile_cons, if_pos hc, List.takeWhile_cons, if_pos hc,
        ih b h]
    · rw [List.cons_append, List.takeWhile_cons, if_neg hc, List.takeWhile_cons, if_neg hc]

/-- When the stopping element lies in the left part, `dropWhile` keeps
the right part appended after the stop. -/
theorem dropWhile_append_stop {p : Char → Bool} : ∀ (a b : List Char),
    a.dropWhile p ≠ [] → (a ++ b).dropWhile p = a.dropWhile p ++ b := by
  intro a
  induction a with
  | nil => intro b h; exact absurd rfl h
  | cons c a ih =>
    intro b h
    by_cases hc : p c = true
    · rw [List.dropWhile_cons, if_pos hc] at h
      rw [List.cons_append, List.dropWhile_cons, if_pos hc, List.dropWhile_cons, if_pos hc,
        ih b h]
    · rw [List.cons_append, List.dropWhile_cons, if_neg hc, List.dropWhile_cons, if_neg hc,
        List.cons_append]

/-- A needle no longer than the left part of an append that leads the
append also leads the left part. -/
theorem hasLead_of_append_long {w : List Char} : ∀ {a : List Char} (b : List Char),
    hasLead w (a ++ b) = true → w.length ≤ a.length → hasLead w a = true := by
  induction w with
  | nil => intro a b _ _; rfl
  | cons x ns ih =>
    intro a b h hlen
    cases a with
    | nil => simp at hlen
    | cons c cs =>
      rw [List.cons_append] at h
      simp only [hasLead, Bool.and_eq_true, beq_iff_eq] at h ⊢
      exact ⟨h.1, ih b h.2 (by simpa using hlen)⟩

/-- On a text free of `f` the rewrite of line 81 finds no match. -/
theorem subFill_of_no_f {s : List Char} (h : ∀ c ∈ s, c ≠ 'f') : subFill s = s := by
  induction s with
  | nil => rfl
  | cons c cs ih =>
    have hL : ¬ hasLead fillLit (c :: cs) = true := by
      intro hcon
      exact h c (List.mem_cons_self c cs) (hasLead_cons_head hcon).symm
    rw [subFill_cons_eq, if_neg hL, ih (fun x hx => h x (List.mem_cons_of_mem c hx))]

/-- The rewrite of a nonempty text is nonempty. -/
theorem subFill_ne_nil {s : List Char} (h : s ≠ []) : subFill s ≠ [] := by
  cases s with
  | nil => exact absurd rfl h
  | cons c cs =>
    rw [subFill_cons_eq]
    by_cases hL : hasLead fillLit (c :: cs) = true
    · rw [if_pos hL]
      by_cases hq : ((cs.drop 5).dropWhile (fun x => x != '"')) ≠ []
      · rw [if_pos hq]
        simp [subHead, fillLit]
      · rw [if_neg hq]
        simp
    · rw [if_neg hL]
      simp

/-- Every character of the rewrite's output comes from the input or from
the replacement text. -/
theorem mem_subFill : ∀ (n : Nat) (s : List Char), s.length ≤ n →
    ∀ c ∈ subFill s, c ∈ s ∨ c ∈ subHead := by
  intro n
  induction n with
  | zero =>
    intro s hs c hc
    have hnil : s = [] := by
      cases s with
      | nil => rfl
      | cons d ds => simp at hs
    subst hnil
    simp [subFill, subFillS] at hc
  | succ n ih =>
    intro s hs c hc
    cases s with
    | nil => simp [subFill, subFillS] at hc
    | cons d ds =>
      have hds : ds.length ≤ n := by simpa using hs
      by_cases hL : hasLead fillLit (d :: ds) = true
      · by_cases hq : ((ds.drop 5).dropWhile (fun x => x != '"')) ≠ []
        · rw [subFill_cons_eq, if_pos hL, if_pos hq, subFillS_skip] at hc
          rcases List.mem_append.mp hc with h | h
          · exact Or.inr h
          · rcases ih _ (le_trans (by rw [List.length_drop]; omega) hds) c h with h2 | h2
            · exact Or.inl (List.mem_cons_of_mem d (List.mem_of_mem_drop h2))
            · exact Or.inr h2
        · rw [subFill_cons_eq, if_pos hL, if_neg hq] at hc
          rcases List.mem_cons.mp hc with rfl | h
          · exact Or.inl (List.mem_cons_self c ds)
          · rcases ih ds hds c h with h2 | h2
            · exact Or.inl (List.mem_cons_of_mem d h2)
            · exact Or.inr h2
      · rw [subFill_cons_eq, if_neg hL] at hc
        rcases List.mem_cons.mp hc with rfl | h
        · exact Or.inl (List.mem_cons_self c ds)
        · rcases ih ds hds c h with h2 | h2
          · exact Or.inl (List.mem_cons_of_mem d h2)
          · exact Or.inr h2

/-- The rewrite treats a quote-free, `f`-free suffix transparently: no
match can start in it, extend into it, or be completed by it. -/
theorem subFill_append_clean : ∀ (n : Nat) (a u : List Char), a.length ≤ n →
    (∀ c ∈ u, c ≠ '"' ∧ c ≠ 'f') → subFill (a ++ u) = subFill a ++ u := by
  intro n
  induction n with
  | zero =>
    intro a u ha hu
    have hnil : a = [] := by
      cases a with
      | nil => rfl
      | cons c cs => simp at ha
    subst hnil
    rw [List.nil_append, subFill_of_no_f (fun c hc => (hu c hc).2)]
    rfl
  | succ n ih =>
    intro a u ha hu
    cases a with
    | nil =>
      rw [List.nil_append, subFill_of_no_f (fun c hc => (hu c hc).2)]
      rfl
    | cons c cs =>
      have hcs : cs.length ≤ n := by simpa using ha
      rw [show (c :: cs) ++ u = c :: (cs ++ u) from rfl]
      by_cases hL : hasLead fillLit (c :: cs) = true
      · obtain ⟨r, hr⟩ := eq_append_of_hasLead hL
        simp only [fillLit, List.cons_append, List.nil_append, List.cons.injEq] at hr
        obtain ⟨hcf, hcs5⟩ := hr
        have hlen5 : 5 ≤ cs.length := by rw [hcs5]; simp
        have hLu : hasLead fillLit (c :: (cs ++ u)) = true := hasLead_append_of u hL
        have hdropu : (cs ++ u).drop 5 = cs.drop 5 ++ u := List.drop_append_of_le_length hlen5
        by_cases hq : ((cs.drop 5).dropWhile (fun x => x != '"')) ≠ []
        · have htk : ((cs.drop 5) ++ u).takeWhile (fun x => x != '"') =
              (cs.drop 5).takeWhile (fun x => x != '"') := takeWhile_append_stop _ u hq
          have hqu : (((cs ++ u).drop 5).dropWhile (fun x => x != '"')) ≠ [] := by
            rw [hdropu, dropWhile_append_stop _ u hq]
            intro hcon
            exact hq (List.append_eq_nil.mp hcon).1
          have hL6 : ((cs.drop 5).takeWhile (fun x => x != '"')).length + 6 ≤ cs.length := by
            have hsplit := List.takeWhile_append_dropWhile (fun x => x != '"') (cs.drop 5)
            have hlen := congrArg List.length hsplit
            rw [List.length_append, List.length_drop] at hlen
            rcases List.exists_cons_of_ne_nil hq with ⟨y, ys, hys⟩
            rw [hys] at hlen
            simp only [List.length_cons] at hlen
            omega
          have hLHS : subFill (c :: (cs ++ u)) =
              subHead ++
                subFill ((cs.drop (((cs.drop 5).takeWhile (fun x => x != '"')).length + 6)) ++ u) := by
            rw [subFill_cons_eq, if_pos hLu, if_pos hqu, hdropu, htk, subFillS_skip,
              List.drop_append_of_le_length hL6]
          have hRHS : subFill (c :: cs) =
              subHead ++ subFill (cs.drop (((cs.drop 5).takeWhile (fun x => x != '"')).length + 6)) := by
            rw [subFill_cons_eq, if_pos hL, if_pos hq, subFillS_skip]
          rw [hLHS, hRHS, ih _ u (le_trans (by rw [List.length_drop]; omega) hcs) hu,
            List.append_assoc]
        · have hq0 : ((cs.drop 5).dropWhile (fun x => x != '"')) = [] := not_not.mp hq
          have hqu : ¬ (((cs ++ u).drop 5).dropWhile (fun x => x != '"')) ≠ [] := by
            rw [hdropu, dropWhile_append_all _ u (List.dropWhile_eq_nil_iff.mp hq0),
              List.dropWhile_eq_nil_iff.mpr (fun x hx => by simpa using (hu x hx).1)]
            simp
          have hLHS : subFill (c :: (cs ++ u)) = c :: subFill (cs ++ u) := by
            rw [subFill_cons_eq, if_pos hLu, if_neg hqu]
          have hRHS : subFill (c :: cs) = c :: subFill cs := by
            rw [subFill_cons_eq, if_pos hL, if_neg hq]
          rw [hLHS, hRHS, ih cs u hcs hu]
          rfl
      · by_cases hLu : hasLead fillLit (c :: (cs ++ u)) = true
        · exfalso
          by_cases hlen : fillLit.length ≤ (c :: cs).length
          · exact hL (hasLead_of_append_long u hLu hlen)
          · push_neg at hlen
            obtain ⟨r, hr⟩ := eq_append_of_hasLead hLu
            have hle : (c :: cs).length ≤ fillLit.length := le_of_lt hlen
            have h1 : ((c :: cs) ++ u).drop (c :: cs).length = u := List.drop_left _ _
            have h2 : (c :: cs) ++ u = fillLit ++ r := hr
            rw [h2, List.drop_append_of_le_length hle] at h1
            have hball : ∀ k, k ≤ 5 → ('"' : Char) ∈ fillLit.drop k := by decide
            have hk5 : (c :: cs).length ≤ 5 := by
              have : fillLit.length = 6 := by decide
              omega
            have hqmem : ('"' : Char) ∈ u := by
              rw [← h1]
              exact List.mem_append_left _ (hball _ hk5)
            exact (hu _ hqmem).1 rfl
        · have hLHS : subFill (c :: (cs ++ u)) = c :: subFill (cs ++ u) := by
            rw [subFill_cons_eq, if_neg hLu]
          have hRHS : subFill (c :: cs) = c :: subFill cs := by
            rw [subFill_cons_eq, if_neg hL]
          rw [hLHS, hRHS, ih cs u hcs hu]
          rfl

/-- The rewrite leaves the leading `<path` of an element in place. -/
theorem subFill_path_head (s : List Char) :
    subFill ('<' :: 'p' :: 'a' :: 't' :: 'h' :: s) =
      '<' :: 'p' :: 'a' :: 't' :: 'h' :: subFill s := rfl

/-- The rewrite of a well-formed self-closing path element is again a
well-formed self-closing path element. -/
theorem subFill_shape {t : List Char} (hne : ∀ c ∈ t, c ≠ '>')
    (h2 : 2 ≤ t.length) (hl : t.getLast? = some '/') :
    ∃ t2, subFill (pathLit ++ t ++ ['>']) = pathLit ++ t2 ++ ['>'] ∧
      (∀ c ∈ t2, c ≠ '>') ∧ 2 ≤ t2.length ∧ t2.getLast? = some '/' := by
  obtain ⟨t0, ht0⟩ := List.getLast?_eq_some_iff.mp hl
  have ht0ne : t0 ≠ [] := by
    intro hcon
    rw [hcon] at ht0
    rw [ht0] at h2
    simp at h2
  refine ⟨subFill t0 ++ ['/'], ?_, ?_, ?_, ?_⟩
  · have hre : pathLit ++ t ++ ['>'] = (pathLit ++ t0) ++ ['/', '>'] := by
      rw [ht0]
      simp
    rw [hre,
      subFill_append_clean (pathLit ++ t0).length (pathLit ++ t0) ['/', '>'] (le_refl _) (by decide),
      show pathLit ++ t0 = '<' :: 'p' :: 'a' :: 't' :: 'h' :: t0 from rfl, subFill_path_head]
    simp [pathLit]
  · intro c hc
    rcases List.mem_append.mp hc with hcm | hcm
    · rcases mem_subFill t0.length t0 (le_refl _) c hcm with hin | hin
      · exact hne c (by rw [ht0]; exact List.mem_append_left _ hin)
      · intro hcon
        subst hcon
        exact absurd hin (by decide)
    · have : c = '/' := by simpa using hcm
      subst this
      decide
  · have hne2 := subFill_ne_nil ht0ne
    have hpos : 1 ≤ (subFill t0).length := by
      cases hsf : subFill t0 with
      | nil => exact absurd hsf hne2
      | cons x xs => simp
    rw [List.length_append]
    simp only [List.length_singleton]
    omega
  · exact List.getLast?_concat _

/-- One scan step of the element scan at a fresh position. -/
theorem findPathsS_cons_eq (c : Char) (cs : List Char) :
    findPathsS 0 (c :: cs) =
      if hasLead pathLit (c :: cs) = true then
        (if 2 ≤ ((cs.drop 4).takeWhile (fun x => x != '>')).length ∧
            ((cs.drop 4).takeWhile (fun x => x != '>')).getLast? = some '/' ∧
            ((cs.drop 4).dropWhile (fun x => x != '>')) ≠ [] then
          (pathLit ++ ((cs.drop 4).takeWhile (fun x => x != '>')) ++ ['>']) ::
            findPathsS (((cs.drop 4).takeWhile (fun x => x != '>')).length + 5) cs
        else findPathsS 0 cs)
      else findPathsS 0 cs := rfl

/-- Every scanned element is `<path`, then a nonempty `>`-free run ending
in `/`, then `>`. -/
theorem mem_findPathsS_shape : ∀ (content : List Char) (k : Nat) (q : List Char),
    q ∈ findPathsS k content →
    ∃ t, q = pathLit ++ t ++ ['>'] ∧ (∀ c ∈ t, c ≠ '>') ∧ 2 ≤ t.length ∧
      t.getLast? = some '/' := by
  intro content
  induction content with
  | nil =>
    intro k q hq
    cases k <;> simp [findPathsS] at hq
  | cons c cs ih =>
    intro k q hq
    cases k with
    | succ j => exact ih j q hq
    | zero =>
      by_cases hL : hasLead pathLit (c :: cs) = true
      · by_cases hcond : 2 ≤ ((cs.drop 4).takeWhile (fun x => x != '>')).length ∧
            ((cs.drop 4).takeWhile (fun x => x != '>')).getLast? = some '/' ∧
            ((cs.drop 4).dropWhile (fun x => x != '>')) ≠ []
        · rw [findPathsS_cons_eq, if_pos hL, if_pos hcond] at hq
          rcases List.mem_cons.mp hq with rfl | hmem
          · refine ⟨(cs.drop 4).takeWhile (fun x => x != '>'), rfl, ?_, hcond.1, hcond.2.1⟩
            intro x hx
            have hpx := List.mem_takeWhile_imp hx
            simpa using hpx
          · exact ih _ q hmem
        · rw [findPathsS_cons_eq, if_pos hL, if_neg hcond] at hq
          exact ih 0 q hq
      · rw [findPathsS_cons_eq, if_neg hL] at hq
        exact ih 0 q hq

/-- The fixed header contains no `<path`, so the element scan of the
final document passes over it. -/
theorem findPathsS_header (s : List Char) :
    findPathsS 0 (svgHeader ++ s) = findPathsS 0 s := rfl

/-- The element scan finds a well-formed path element placed at the
front of the remaining text. -/
theorem findPathsS_hit (t2 s : List Char) (hne : ∀ c ∈ t2, c ≠ '>')
    (h2 : 2 ≤ t2.length) (hl : t2.getLast? = some '/') :
    findPathsS 0 (pathLit ++ (t2 ++ ('>' :: s))) ≠ [] := by
  have hall : ∀ c ∈ t2, (fun x => x != '>') c = true := by
    intro c hc
    simpa using hne c hc
  have htk : (t2 ++ '>' :: s).takeWhile (fun x => x != '>') = t2 := by
    rw [takeWhile_append_all t2 ('>' :: s) hall, List.takeWhile_cons]
    simp
  have hdw : (t2 ++ '>' :: s).dropWhile (fun x => x != '>') = '>' :: s := by
    rw [dropWhile_append_all t2 ('>' :: s) hall, List.dropWhile_cons]
    simp
  rw [show pathLit ++ (t2 ++ ('>' :: s)) = '<' :: 'p' :: 'a' :: 't' :: 'h' :: (t2 ++ '>' :: s) from rfl,
    findPathsS_cons_eq,
    if_pos (show hasLead pathLit ('<' :: 'p' :: 'a' :: 't' :: 'h' :: (t2 ++ '>' :: s)) = true from rfl),
    show ('p' :: 'a' :: 't' :: 'h' :: (t2 ++ '>' :: s)).drop 4 = t2 ++ '>' :: s from rfl,
    htk, hdw, if_pos ⟨h2, hl, by simp⟩]
  simp

/-- Whenever the vectorizer output contains a scanned path element free
of `#fff`/`#FFF`, the extraction retains an element and the assembled
final document itself contains a self-closing path element. -/
theorem monoSvg_has_path (content : List Char)
    (h : (findPaths content).any notWhiteish = true) :
    blackPathsOf content ≠ [] ∧ findPaths (monoSvg content) ≠ [] := by
  have hbp : blackPathsOf content ≠ [] := by
    unfold blackPathsOf
    rw [List.any_eq_true] at h
    obtain ⟨x, hx, hwx⟩ := h
    by_cases hf : (findPaths content).filter isBlackish = []
    · rw [if_pos hf]
      exact List.ne_nil_of_mem (List.mem_filter.mpr ⟨hx, hwx⟩)
    · rw [if_neg hf]
      exact hf
  refine ⟨hbp, ?_⟩
  obtain ⟨q0, rest, hq0⟩ := List.exists_cons_of_ne_nil hbp
  have hq0paths : q0 ∈ findPaths content := by
    have hq0mem : q0 ∈ blackPathsOf content := by
      rw [hq0]
      exact List.mem_cons_self q0 rest
    unfold blackPathsOf at hq0mem
    by_cases hf : (findPaths content).filter isBlackish = []
    · rw [if_pos hf] at hq0mem
      exact (List.mem_filter.mp hq0mem).1
    · rw [if_neg hf] at hq0mem
      exact (List.mem_filter.mp hq0mem).1
  obtain ⟨t, hshape, hne, ht2, htl⟩ := mem_findPathsS_shape content 0 q0 hq0paths
  obtain ⟨t2, hsf, hne2, h22, hl2⟩ := subFill_shape hne ht2 htl
  have hdoc : monoSvg content =
      svgHeader ++ (pathLit ++ (t2 ++ ('>' ::
        ('\n' :: ((rest.map (fun p => subFill p ++ ['\n'])).flatten ++ svgFooter))))) := by
    rw [monoSvg, hq0, List.map_cons, List.flatten_cons, hshape, hsf]
    simp [List.append_assoc]
  rw [show findPaths (monoSvg content) = findPathsS 0 (monoSvg content) from rfl, hdoc,
    findPathsS_header]
  exact findPathsS_hit t2 _ hne2 h22 hl2

/-- Claim C8 (amended): a foreground pixel in the source bitmap does not
by itself guarantee a shape element, because the external vectorizer is an
unconstrained black box; the claim holds once the vectorizer output
contains at least one scanned path element free of the substrings `#fff`
and `#FFF`: then the extraction (with its fallback) retains at least one
element, and the final monochrome document written by the run contains at
least one self-closing path element. -/
theorem c8_nonempty (vc vb : Nat → Nat → List Pixel → List Char) (w h : Nat)
    (src : List Pixel) (px : Pixel) (hmem : px ∈ src) (hfg : foregroundSpec px)
    (hvec : (findPaths (vb w h (silhouetteData src))).any notWhiteish = true) :
    blackPathsOf (vb w h (silhouetteData src)) ≠ [] ∧
      findPaths ((runConvert vc vb w h src).2) ≠ [] :=
  monoSvg_has_path (vb w h (silhouetteData src)) hvec

/-- Claim C8 witness: the theorem applied to a one-foreground-pixel
bitmap and a vectorizer producing one black path element. -/
theorem c8_nonempty_witness :
    blackPathsOf (onePathVec 1 1 (silhouetteData [⟨0, 0, 0, 255⟩])) ≠ [] ∧
      findPaths ((runConvert onePathVec onePathVec 1 1 [⟨0, 0, 0, 255⟩]).2) ≠ [] :=
  c8_nonempty onePathVec onePathVec 1 1 [⟨0, 0, 0, 255⟩] ⟨0, 0, 0, 255⟩
    (by decide) (by decide) (by decide)
